import Mathlib

/-!
# Verification of the mreg DNS inventory core

Shallow embedding of the core algorithms of the mreg repository
(`mreg/models.py`, `mreg/api/v1/views.py`, with `mreg/api/v1/tests.py` as
the behavioural reference) together with proofs about them.

Addresses are modelled as natural numbers (the integer value of the IPv4
or IPv6 address); dates and serial numbers as natural numbers in their
`YYYYMMDD` / `YYYYMMDDNN` decimal encodings.
-/

namespace Mreg

/-! ## Serial number generation

`mreg/utils.py` (which defines `create_serialno`) is not part of the
source tree under examination; only its callers and tests are.  The
generator is therefore modelled from the spec, section 4.2.
-/

/-- Modelled from the spec: `createSerial(previous, today)` from §4.2
(`create_serialno` in the missing `mreg/utils.py`).  Serial format is
`YYYYMMDDNN`.  If `previous` is none or its date portion is before
`today`, the result is `today * 100 + 1`; if the date portion equals or
is after `today`, the two-digit sequence is incremented, and exceeding
`99` is a fatal generation error. -/
def create_serial (previous : Option Nat) (today : Nat) : Except String Nat :=
  match previous with
  | none => .ok (today * 100 + 1)
  | some prev =>
    if prev / 100 < today then .ok (today * 100 + 1)
    else if 99 ≤ prev % 100 then .error "FATAL: more than 99 zone updates in one day"
    else .ok (prev + 1)

/-- A zone as far as serial management is concerned: a name and an
optional previous serial (`Zone.serialno` in `mreg/models.py` is
nullable). -/
structure ZoneSerial where
  name : String
  serialno : Option Nat

/-- Modelled from the spec: assigning a new serial to a zone consults
only the zone's previous serial and today's date (§4.2/§4.3). -/
def zone_update_serial (z : ZoneSerial) (today : Nat) : Except String ZoneSerial :=
  (create_serial z.serialno today).map fun s => { z with serialno := some s }

/-- Chained serial generation: each call receives the serial returned by
the previous call, together with that call's `today` value. -/
def run_serials (prev : Option Nat) : List Nat → Except String (List Nat)
  | [] => .ok []
  | t :: ts =>
    match create_serial prev t with
    | .error e => .error e
    | .ok s =>
      match run_serials (some s) ts with
      | .error e => .error e
      | .ok ss => .ok (s :: ss)

/-- Any successful serial step strictly increases the serial. -/
theorem create_serial_lt (p t s : Nat) (h : create_serial (some p) t = .ok s) :
    p < s := by
  unfold create_serial at h
  by_cases h1 : p / 100 < t
  · simp only [h1, if_true] at h
    have hmod := Nat.div_add_mod p 100
    have hlt : p % 100 < 100 := Nat.mod_lt _ (by omega)
    cases h
    omega
  · simp only [h1, if_false] at h
    by_cases h2 : 99 ≤ p % 100
    · simp [h2] at h
    · simp only [h2, if_false] at h
      cases h
      omega

/-- The head of a successful chained run exceeds the incoming serial. -/
theorem run_serials_head (p : Nat) (ts ss : List Nat)
    (h : run_serials (some p) ts = .ok ss) (s0 : Nat) (h0 : ss.head? = some s0) :
    p < s0 := by
  cases ts with
  | nil =>
    simp only [run_serials] at h
    cases h
    simp at h0
  | cons t ts =>
    simp only [run_serials] at h
    cases hc : create_serial (some p) t with
    | error e => rw [hc] at h; cases h
    | ok s =>
      rw [hc] at h
      dsimp only at h
      cases hr : run_serials (some s) ts with
      | error e => rw [hr] at h; cases h
      | ok ss' =>
        rw [hr] at h
        cases h
        simp at h0
        subst h0
        exact create_serial_lt p t s hc

/-- A successful chained run produces a strictly increasing list. -/
theorem run_serials_chain (prev : Option Nat) (ts ss : List Nat)
    (h : run_serials prev ts = .ok ss) : List.Chain' (· < ·) ss := by
  induction ts generalizing prev ss with
  | nil =>
    simp only [run_serials] at h
    cases h
    exact List.chain'_nil
  | cons t ts ih =>
    simp only [run_serials] at h
    cases hc : create_serial prev t with
    | error e => rw [hc] at h; cases h
    | ok s =>
      rw [hc] at h
      dsimp only at h
      cases hr : run_serials (some s) ts with
      | error e => rw [hr] at h; cases h
      | ok ss' =>
        rw [hr] at h
        cases h
        cases ss' with
        | nil => simp
        | cons s1 rest =>
          refine List.chain'_cons.mpr ⟨?_, ih (some s) (s1 :: rest) hr⟩
          exact run_serials_head s ts (s1 :: rest) hr s1 rfl

/-- C2: two zones serialised on the same day, neither having a prior
serial, both receive the serial `today * 100 + 1` (the date in `YYYYMMDD`
form followed by sequence number `01`); the result depends only on the
date and the previous serial, never on the zone's identity. -/
theorem zone_serial_same_day_identical (z1 z2 : ZoneSerial) (today : Nat)
    (h1 : z1.serialno = none) (h2 : z2.serialno = none) :
    zone_update_serial z1 today = .ok { z1 with serialno := some (today * 100 + 1) } ∧
    zone_update_serial z2 today = .ok { z2 with serialno := some (today * 100 + 1) } ∧
    (zone_update_serial z1 today).map ZoneSerial.serialno =
      (zone_update_serial z2 today).map ZoneSerial.serialno := by
  simp [zone_update_serial, create_serial, h1, h2, Except.map]

/-- Witness for `zone_serial_same_day_identical` at two concrete zones
and the date 2018-06-15. -/
theorem zone_serial_same_day_identical_witness :
    zone_update_serial ⟨"example.org", none⟩ 20180615 =
      .ok ⟨"example.org", some 2018061501⟩ ∧
    zone_update_serial ⟨"example.com", none⟩ 20180615 =
      .ok ⟨"example.com", some 2018061501⟩ ∧
    (zone_update_serial ⟨"example.org", none⟩ 20180615).map ZoneSerial.serialno =
      (zone_update_serial ⟨"example.com", none⟩ 20180615).map ZoneSerial.serialno :=
  zone_serial_same_day_identical ⟨"example.org", none⟩ ⟨"example.com", none⟩ 20180615 rfl rfl

/-- C3: chaining `createSerial` (each call taking the previous call's
result, with non-decreasing `today` values) yields a strictly increasing
serial sequence; in particular under clock skew (`previous`'s date
portion after `today`) the sequence part of `previous` is incremented
rather than regressing to a `today`-based serial. -/
theorem serials_strictly_monotonic (ts ss : List Nat) (p t : Nat)
    (hrun : run_serials none ts = .ok ss)
    (hmono : List.Chain' (· ≤ ·) ts)
    (hskew : t < p / 100) (hseq : p % 100 < 99) :
    List.Chain' (· < ·) ss ∧ create_serial (some p) t = .ok (p + 1) := by
  refine ⟨run_serials_chain none ts ss hrun, ?_⟩
  unfold create_serial
  have h1 : ¬ p / 100 < t := by omega
  have h2 : ¬ 99 ≤ p % 100 := by omega
  simp [h1, h2]

/-- Witness for `serials_strictly_monotonic`: three same-or-later-day
calls chained from no serial, plus a skewed previous serial dated
2018-06-16 with today 2018-06-15. -/
theorem serials_strictly_monotonic_witness :
    run_serials none [20180615, 20180615, 20180616] =
      .ok [2018061501, 2018061502, 2018061601] ∧
    List.Chain' (· ≤ ·) [20180615, 20180615, 20180616] ∧
    20180615 < 2018061607 / 100 ∧ 2018061607 % 100 < 99 ∧
    List.Chain' (· < ·) [2018061501, 2018061502, 2018061601] ∧
    create_serial (some 2018061607) 20180615 = .ok 2018061608 := by
  have h := serials_strictly_monotonic [20180615, 20180615, 20180616]
    [2018061501, 2018061502, 2018061601] 2018061607 20180615
    rfl (by norm_num [List.chain'_cons]) (by decide) (by decide)
  exact ⟨rfl, by norm_num [List.chain'_cons], by decide, by decide, h.1, h.2⟩

/-! ## Networks and address space

`Subnet.get_reserved_addresses` (`mreg/models.py`, lines 271-279) is
embedded directly.  A network is its parsed CIDR range: first address,
number of addresses, address family, plus the `reserved` count.  The
semantics of Python's `ipaddress` module is reproduced: `hosts()` for
IPv4 is all addresses except network and broadcast (with the whole
range for a /31 and the single address for a /32), and for IPv6 all
addresses except the subnet-router anycast address (with the whole
range for a /127 and the single address for a /128).
-/

/-- A parsed network: `base` is the integer value of the network
address, `size` the number of addresses in the range, `v4` the address
family, `reserved` the reserved count (`Subnet.reserved`). -/
structure Net where
  base : Nat
  size : Nat
  v4 : Bool
  reserved : Nat

/-- The `k` consecutive addresses starting at `a`, in address order. -/
def addr_range (a k : Nat) : List Nat := (List.range k).map (a + ·)

/-- The broadcast (last) address of the range. -/
def broadcast (n : Net) : Nat := n.base + n.size - 1

/-- Python `ip_network(...).hosts()`: the usable host addresses of the
network, in address order. -/
def hostsList (n : Net) : List Nat :=
  if n.size = 1 then [n.base]
  else if n.size = 2 then [n.base, n.base + 1]
  else if n.v4 then addr_range (n.base + 1) (n.size - 2)
  else addr_range (n.base + 1) (n.size - 1)

/-- `Subnet.get_reserved_addresses` (models.py:271): the set holding the
network address, the first `reserved` elements of `hosts()`, and, for
IPv4 only, the broadcast address. -/
def get_reserved_addresses (n : Net) : Finset Nat :=
  insert n.base ((hostsList n).take n.reserved).toFinset ∪
    (if n.v4 then {broadcast n} else ∅)

theorem mem_addr_range (a k x : Nat) : x ∈ addr_range a k ↔ a ≤ x ∧ x < a + k := by
  simp only [addr_range, List.mem_map, List.mem_range]
  constructor
  · rintro ⟨i, hi, rfl⟩; omega
  · rintro ⟨h1, h2⟩; exact ⟨x - a, by omega, by omega⟩

theorem addr_range_nodup (a k : Nat) : (addr_range a k).Nodup :=
  (List.nodup_range k).map fun _ _ h => by omega

theorem addr_range_length (a k : Nat) : (addr_range a k).length = k := by
  simp [addr_range]

theorem addr_range_pairwise (a k : Nat) : (addr_range a k).Pairwise (· < ·) :=
  (List.pairwise_lt_range k).map (a + ·) fun _ _ h => by dsimp only; omega

theorem addr_range_chain (a k : Nat) : List.Chain' (· < ·) (addr_range a k) :=
  (addr_range_pairwise a k).chain'

theorem hostsList_nodup (n : Net) : (hostsList n).Nodup := by
  unfold hostsList
  split
  · simp
  · split
    · simp
    · split <;> exact addr_range_nodup _ _

theorem hostsList_chain (n : Net) : List.Chain' (· < ·) (hostsList n) := by
  unfold hostsList
  split
  · simp
  · split
    · simp
    · split <;> exact addr_range_chain _ _

theorem hostsList_subset_range (n : Net) (a : Nat) (h : a ∈ hostsList n) :
    n.base ≤ a ∧ a ≤ n.base + n.size - 1 := by
  unfold hostsList at h
  split at h
  · simp at h; omega
  · split at h
    · simp at h; omega
    · split at h <;> rw [mem_addr_range] at h <;> omega

theorem mem_image_range (b k x : Nat) :
    x ∈ (Finset.range k).image (b + ·) ↔ b ≤ x ∧ x < b + k := by
  simp only [Finset.mem_image, Finset.mem_range]
  constructor
  · rintro ⟨i, hi, rfl⟩; omega
  · rintro ⟨h1, h2⟩; exact ⟨x - b, by omega, by omega⟩

theorem card_image_range (b k : Nat) : ((Finset.range k).image (b + ·)).card = k := by
  rw [Finset.card_image_of_injective _ fun x y h => by omega]
  exact Finset.card_range k

/-- For networks of at most four addresses whose `reserved` field was set
to `min 2 size` (the create-time default for tiny networks,
views.py:457-459), the reserved set is an initial segment of the range:
all of it for IPv4, and `min (reserved+1) size` addresses for IPv6. -/
theorem reserved_tiny_card (n : Net) (h1 : 1 ≤ n.size) (h4 : n.size ≤ 4)
    (hres : n.reserved = min 2 n.size) :
    (get_reserved_addresses n).card =
      if n.v4 then min (n.reserved + 2) n.size
      else min (n.reserved + 1) n.size := by
  obtain ⟨b, s, v, r⟩ := n
  simp only at h1 h4 hres ⊢
  subst hres
  interval_cases s <;> cases v <;>
    simp only [Bool.false_eq_true, if_true, if_false] <;>
    [skip; skip; skip; skip; skip; skip; skip; skip] <;>
    first
    | (rw [show get_reserved_addresses ⟨b, 1, false, min 2 1⟩ =
          (Finset.range 1).image (b + ·) from by
            ext x
            rw [mem_image_range]
            simp [get_reserved_addresses, hostsList, addr_range, broadcast,
              List.range_succ]
            omega,
        card_image_range])
    | (rw [show get_reserved_addresses ⟨b, 1, true, min 2 1⟩ =
          (Finset.range 1).image (b + ·) from by
            ext x
            rw [mem_image_range]
            simp [get_reserved_addresses, hostsList, addr_range, broadcast,
              List.range_succ]
            omega,
        card_image_range])
    | (rw [show get_reserved_addresses ⟨b, 2, false, min 2 2⟩ =
          (Finset.range 2).image (b + ·) from by
            ext x
            rw [mem_image_range]
            simp [get_reserved_addresses, hostsList, addr_range, broadcast,
              List.range_succ]
            omega,
        card_image_range])
    | (rw [show get_reserved_addresses ⟨b, 2, true, min 2 2⟩ =
          (Finset.range 2).image (b + ·) from by
            ext x
            rw [mem_image_range]
            simp [get_reserved_addresses, hostsList, addr_range, broadcast,
              List.range_succ]
            omega,
        card_image_range])
    | (rw [show get_reserved_addresses ⟨b, 3, false, min 2 3⟩ =
          (Finset.range 3).image (b + ·) from by
            ext x
            rw [mem_image_range]
            simp [get_reserved_addresses, hostsList, addr_range, broadcast,
              List.range_succ]
            omega,
        card_image_range])
    | (rw [show get_reserved_addresses ⟨b, 3, true, min 2 3⟩ =
          (Finset.range 3).image (b + ·) from by
            ext x
            rw [mem_image_range]
            simp [get_reserved_addresses, hostsList, addr_range, broadcast,
              List.range_succ]
            omega,
        card_image_range])
    | (rw [show get_reserved_addresses ⟨b, 4, false, min 2 4⟩ =
          (Finset.range 3).image (b + ·) from by
            ext x
            rw [mem_image_range]
            simp [get_reserved_addresses, hostsList, addr_range, broadcast,
              List.range_succ]
            omega,
        card_image_range])
    | (rw [show get_reserved_addresses ⟨b, 4, true, min 2 4⟩ =
          (Finset.range 4).image (b + ·) from by
            ext x
            rw [mem_image_range]
            simp [get_reserved_addresses, hostsList, addr_range, broadcast,
              List.range_succ]
            omega,
        card_image_range])
  all_goals omega

/-! ### Used and unused addresses

The `Network` methods `get_used_ipaddresses`, `get_unused_ipaddresses`,
`get_used_ipaddress_count` and `get_first_unused` called from
`mreg/api/v1/views.py` are not part of the `mreg/models.py` under
examination (that file still carries the older `Subnet` model), so they
are modelled from the spec (§4.1) and pinned to the concrete behaviour
asserted by `mreg/api/v1/tests.py` (unused-count 250 for `10.0.0.0/24`
with reserved 3 and one used address; 3997 and first-unused `::4` for a
`2001:db8::/32` with reserved 3, capped to the first 4000 addresses).
-/

/-- One `Ipaddress` row: a host name and an address
(`mreg/models.py:162`). -/
structure IpRow where
  host : String
  ipaddress : Nat
deriving DecidableEq

/-- Membership of an address in the network's range
(`ipaddress__range=(network_address, broadcast_address)`). -/
def in_range (n : Net) (a : Nat) : Bool :=
  decide (n.base ≤ a) && decide (a ≤ n.base + n.size - 1)

/-- Modelled from the spec: `usedAddresses(network)` — the addresses of
every Ipaddress row falling inside the network's range (spec §4.1).
Duplicate rows contribute once each, matching the row count the API
reports. -/
def used_list (n : Net) (rows : List IpRow) : List Nat :=
  (rows.filter fun r => in_range n r.ipaddress).map IpRow.ipaddress

/-- Modelled from the spec: `usedCount(network)` (§4.1). -/
def used_count (n : Net) (rows : List IpRow) : Nat := (used_list n rows).length

/-- The 4000-address bound on unused-address enumeration for very large
IPv6 ranges (spec §4.1, tests.py:1531-1539). -/
def unusedCap : Nat := 4000

/-- Whether the unused-address enumeration of this network is capped:
only IPv6 networks with more than 4000 addresses are. -/
def isCapped (n : Net) : Bool := !n.v4 && decide (unusedCap < n.size)

/-- The usable addresses considered by the unused-address enumeration:
all of `hosts()` normally, only the first 4000 of them when capped. -/
def candidateAddresses (n : Net) : List Nat :=
  if isCapped n then addr_range (n.base + 1) unusedCap else hostsList n

/-- Modelled from the spec: `unusedAddresses(network)` — the considered
usable addresses minus reserved and used addresses, in address order
(§4.1, capped per `isCapped`). -/
def unused_list (n : Net) (rows : List IpRow) : List Nat :=
  (candidateAddresses n).filter fun a =>
    decide (a ∉ get_reserved_addresses n) && decide (a ∉ used_list n rows)

/-- Modelled from the spec: `unusedCount(network)` (§4.1). -/
def unused_count (n : Net) (rows : List IpRow) : Nat := (unused_list n rows).length

/-- Modelled from the spec: `firstUnused(network)` — the minimum of the
unused addresses, or none (§4.1); the list is in ascending address
order so this is its head. -/
def first_unused (n : Net) (rows : List IpRow) : Option Nat :=
  (unused_list n rows).head?

/-- When capped, the considered addresses are exactly the first 4000
usable host addresses. -/
theorem candidateAddresses_capped (n : Net) (h : isCapped n = true) :
    candidateAddresses n = (hostsList n).take unusedCap := by
  have hv : n.v4 = false := by
    simp [isCapped, Bool.and_eq_true] at h
    simpa using h.1
  have hsz : unusedCap < n.size := by
    simp [isCapped, Bool.and_eq_true] at h
    exact h.2
  have h1 : n.size ≠ 1 := by unfold unusedCap at hsz; omega
  have h2 : n.size ≠ 2 := by unfold unusedCap at hsz; omega
  rw [candidateAddresses, if_pos h]
  rw [hostsList, if_neg h1, if_neg h2, if_neg (by simp [hv])]
  rw [addr_range, addr_range, ← List.map_take, List.take_range]
  have : min unusedCap (n.size - 1) = unusedCap := by
    unfold unusedCap at hsz ⊢; omega
  rw [this]

/-- The full range of a network as a finite set. -/
def rangeFinset (n : Net) : Finset Nat := (Finset.range n.size).image (n.base + ·)

theorem rangeFinset_card (n : Net) : (rangeFinset n).card = n.size :=
  card_image_range _ _

theorem mem_rangeFinset (n : Net) (a : Nat) :
    a ∈ rangeFinset n ↔ n.base ≤ a ∧ a < n.base + n.size :=
  mem_image_range _ _ _

theorem base_mem_reserved (n : Net) : n.base ∈ get_reserved_addresses n := by
  simp [get_reserved_addresses]

/-- Every in-range address that is not reserved is a usable host
address.  The network address is always reserved, and for IPv4 so is
the broadcast address, which are exactly the in-range addresses that
`hosts()` omits. -/
theorem range_not_reserved_mem_hosts (n : Net) (a : Nat)
    (ha1 : n.base ≤ a) (ha2 : a < n.base + n.size)
    (hnr : a ∉ get_reserved_addresses n) : a ∈ hostsList n := by
  have hb : a ≠ n.base := fun h => hnr (h ▸ base_mem_reserved n)
  unfold hostsList
  by_cases h1 : n.size = 1
  · exfalso; omega
  rw [if_neg h1]
  by_cases h2 : n.size = 2
  · rw [if_pos h2]; simp; omega
  rw [if_neg h2]
  by_cases hv : n.v4 = true
  · have hbc : a ≠ n.base + n.size - 1 := by
      intro h
      exact hnr (by simp [get_reserved_addresses, broadcast, h, hv])
    rw [if_pos hv, mem_addr_range]
    omega
  · rw [if_neg hv, mem_addr_range]
    omega

theorem reserved_subset_range (n : Net) (hsz : 1 ≤ n.size) :
    get_reserved_addresses n ⊆ rangeFinset n := by
  intro a ha
  rw [mem_rangeFinset]
  by_cases hv : n.v4 = true <;>
    simp only [get_reserved_addresses, hv, if_true, if_false, Bool.false_eq_true,
      Finset.mem_union, Finset.mem_insert, List.mem_toFinset, Finset.mem_singleton,
      Finset.not_mem_empty, or_false] at ha
  · rcases ha with (rfl | h) | rfl
    · omega
    · have := hostsList_subset_range n a (List.take_subset _ _ h)
      omega
    · unfold broadcast; omega
  · rcases ha with rfl | h
    · omega
    · have := hostsList_subset_range n a (List.take_subset _ _ h)
      omega

theorem range_eq_reserved_union_hosts (n : Net) (hsz : 1 ≤ n.size) :
    rangeFinset n =
      get_reserved_addresses n ∪
        ((hostsList n).toFinset \ get_reserved_addresses n) := by
  ext a
  simp only [Finset.mem_union, Finset.mem_sdiff, List.mem_toFinset]
  constructor
  · intro ha
    by_cases hr : a ∈ get_reserved_addresses n
    · exact Or.inl hr
    · rw [mem_rangeFinset] at ha
      exact Or.inr ⟨range_not_reserved_mem_hosts n a ha.1 ha.2 hr, hr⟩
  · rintro (h | ⟨h, _⟩)
    · exact reserved_subset_range n hsz h
    · rw [mem_rangeFinset]
      have := hostsList_subset_range n a h
      omega

/-- When the enumeration is not capped, used, unused and reserved
addresses partition the network's range, provided the used addresses
are pairwise distinct and none of them is reserved. -/
theorem used_unused_reserved_identity (n : Net) (rows : List IpRow)
    (hsz : 1 ≤ n.size) (hcap : isCapped n = false)
    (hnd : (used_list n rows).Nodup)
    (hres : ∀ a ∈ used_list n rows, a ∉ get_reserved_addresses n) :
    used_count n rows + unused_count n rows +
      (get_reserved_addresses n).card = n.size := by
  classical
  have hcand : candidateAddresses n = hostsList n := by
    rw [candidateAddresses, hcap]
    simp
  have hused_mem : ∀ a ∈ used_list n rows, n.base ≤ a ∧ a < n.base + n.size := by
    intro a ha
    simp only [used_list, List.mem_map, List.mem_filter] at ha
    obtain ⟨r, ⟨_, hr⟩, rfl⟩ := ha
    simp only [in_range, Bool.and_eq_true, decide_eq_true_eq] at hr
    omega
  have hUsub : (used_list n rows).toFinset ⊆
      (hostsList n).toFinset \ get_reserved_addresses n := by
    intro a ha
    rw [List.mem_toFinset] at ha
    rw [Finset.mem_sdiff, List.mem_toFinset]
    obtain ⟨h1, h2⟩ := hused_mem a ha
    exact ⟨range_not_reserved_mem_hosts n a h1 h2 (hres a ha), hres a ha⟩
  have hunused_eq : (unused_list n rows).toFinset =
      ((hostsList n).toFinset \ get_reserved_addresses n) \
        (used_list n rows).toFinset := by
    ext a
    simp only [unused_list, hcand, List.toFinset_filter, Finset.mem_filter,
      Finset.mem_sdiff, List.mem_toFinset, Bool.and_eq_true, decide_eq_true_eq]
    tauto
  have hnodup_unused : (unused_list n rows).Nodup := by
    rw [unused_list, hcand]
    exact (hostsList_nodup n).filter _
  have hcard1 : unused_count n rows = (unused_list n rows).toFinset.card := by
    rw [List.toFinset_card_of_nodup hnodup_unused, unused_count]
  have hcard2 : used_count n rows = (used_list n rows).toFinset.card := by
    rw [List.toFinset_card_of_nodup hnd, used_count]
  have hkey1 :
      ((((hostsList n).toFinset \ get_reserved_addresses n) \
          (used_list n rows).toFinset).card) + (used_list n rows).toFinset.card =
        ((hostsList n).toFinset \ get_reserved_addresses n).card :=
    Finset.card_sdiff_add_card_eq_card hUsub
  have hkey2 : (rangeFinset n).card =
      (get_reserved_addresses n).card +
        ((hostsList n).toFinset \ get_reserved_addresses n).card := by
    rw [range_eq_reserved_union_hosts n hsz]
    exact Finset.card_union_of_disjoint Finset.disjoint_sdiff
  rw [rangeFinset_card] at hkey2
  rw [hcard1, hcard2, hunused_eq]
  omega

theorem addr_range_append (a m k : Nat) :
    addr_range a (m + k) = addr_range a m ++ addr_range (a + m) k := by
  simp only [addr_range, List.range_add, List.map_append, List.map_map]
  refine congrArg (_ ++ ·) (List.map_congr_left fun i _ => ?_)
  simp only [Function.comp_apply]
  omega

theorem addr_range_take (a k m : Nat) :
    (addr_range a k).take m = addr_range a (min m k) := by
  simp only [addr_range, ← List.map_take, List.take_range]

theorem addr_range_head (a k : Nat) (h : 0 < k) :
    (addr_range a k).head? = some a := by
  cases k with
  | zero => omega
  | succ m => simp [addr_range, List.range_succ_eq_map]

theorem addr_range_three (a : Nat) : addr_range a 3 = [a, a + 1, a + 2] := by
  simp [addr_range, List.range_succ]

/-- For an IPv6 network with at least five addresses and `reserved = 3`,
the reserved set is the network address and the three following ones. -/
theorem reserved_v6_three (n : Net) (hv : n.v4 = false) (hr : n.reserved = 3)
    (hs : 5 ≤ n.size) :
    get_reserved_addresses n =
      {n.base, n.base + 1, n.base + 2, n.base + 3} := by
  have h1 : n.size ≠ 1 := by omega
  have h2 : n.size ≠ 2 := by omega
  have hh : hostsList n = addr_range (n.base + 1) (n.size - 1) := by
    rw [hostsList, if_neg h1, if_neg h2, if_neg (by simp [hv])]
  rw [get_reserved_addresses, hh, hr, addr_range_take,
    show min 3 (n.size - 1) = 3 from by omega, addr_range_three, if_neg (by simp [hv])]
  ext x
  simp

/-- For a capped IPv6 network with `reserved = 3` whose used addresses
all lie above the 4000-address window, the unused addresses are exactly
the window minus its first three (reserved) elements. -/
theorem unused_v6_capped_three (n : Net) (rows : List IpRow)
    (hv : n.v4 = false) (hr : n.reserved = 3) (hs : unusedCap < n.size)
    (hrows : ∀ a ∈ used_list n rows, n.base + unusedCap < a) :
    unused_list n rows = addr_range (n.base + 4) 3997 := by
  have hcap : isCapped n = true := by
    simp [isCapped, hv, hs]
  have hres := reserved_v6_three n hv hr (by unfold unusedCap at hs; omega)
  rw [unused_list, candidateAddresses, if_pos hcap,
    show unusedCap = 3 + 3997 from rfl, addr_range_append, List.filter_append,
    addr_range_three]
  have hfirst :
      List.filter (fun a => decide (a ∉ get_reserved_addresses n) &&
          decide (a ∉ used_list n rows))
        [n.base + 1, n.base + 1 + 1, n.base + 1 + 2] = [] := by
    simp [hres]
  have hrest :
      List.filter (fun a => decide (a ∉ get_reserved_addresses n) &&
          decide (a ∉ used_list n rows))
        (addr_range (n.base + 1 + 3) 3997) = addr_range (n.base + 1 + 3) 3997 := by
    rw [List.filter_eq_self]
    intro x hx
    rw [mem_addr_range] at hx
    have hx2 : x ∉ used_list n rows := by
      intro hmem
      have := hrows x hmem
      unfold unusedCap at this
      omega
    simp [hres, hx2]
    omega
  rw [hfirst, hrest]
  simp only [List.nil_append]

/-- C5 (amended): when the unused enumeration is not capped,
`usedCount + unusedCount + |reservedAddresses|` equals the network
size, provided the used addresses are pairwise distinct and none of
them is a reserved address; in particular for `10.0.0.0/24` with
`reserved = 3` and the single Ipaddress `10.0.0.17`, the used count is
1, the unused count 250 and the first unused address `10.0.0.4`. -/
theorem network_usage_partition (n : Net) (rows : List IpRow)
    (hsz : 1 ≤ n.size) (hcap : isCapped n = false)
    (hnd : (used_list n rows).Nodup)
    (hres : ∀ a ∈ used_list n rows, a ∉ get_reserved_addresses n) :
    used_count n rows + unused_count n rows +
      (get_reserved_addresses n).card = n.size ∧
    used_count ⟨0x0a000000, 256, true, 3⟩ [⟨"host1.example.org", 0x0a000011⟩] = 1 ∧
    unused_count ⟨0x0a000000, 256, true, 3⟩ [⟨"host1.example.org", 0x0a000011⟩] = 250 ∧
    first_unused ⟨0x0a000000, 256, true, 3⟩ [⟨"host1.example.org", 0x0a000011⟩] =
      some 0x0a000004 := by
  refine ⟨used_unused_reserved_identity n rows hsz hcap hnd hres, by decide, ?_, by decide⟩
  have hpart : used_count ⟨0x0a000000, 256, true, 3⟩ [⟨"host1.example.org", 0x0a000011⟩] +
      unused_count ⟨0x0a000000, 256, true, 3⟩ [⟨"host1.example.org", 0x0a000011⟩] +
      (get_reserved_addresses ⟨0x0a000000, 256, true, 3⟩).card = 256 :=
    used_unused_reserved_identity ⟨0x0a000000, 256, true, 3⟩
      [⟨"host1.example.org", 0x0a000011⟩] (by decide) (by decide) (by decide) (by decide)
  have hused : used_count ⟨0x0a000000, 256, true, 3⟩
      [⟨"host1.example.org", 0x0a000011⟩] = 1 := by decide
  have hcard : (get_reserved_addresses ⟨0x0a000000, 256, true, 3⟩).card = 5 := by decide
  omega

/-- Witness for `network_usage_partition` at the network `10.0.0.0/24`
(reserved 3) holding the single used address `10.0.0.17`. -/
theorem network_usage_partition_witness :
    used_count ⟨0x0a000000, 256, true, 3⟩ [⟨"host1.example.org", 0x0a000011⟩] +
      unused_count ⟨0x0a000000, 256, true, 3⟩ [⟨"host1.example.org", 0x0a000011⟩] +
      (get_reserved_addresses ⟨0x0a000000, 256, true, 3⟩).card = 256 :=
  (network_usage_partition ⟨0x0a000000, 256, true, 3⟩ [⟨"host1.example.org", 0x0a000011⟩]
    (by decide) (by decide) (by decide) (by decide)).1

/-- C5 counterexample: on the uncapped network `10.0.0.0/30` (reserved
defaulted to 2, so every address of the tiny range is reserved) with a
single Ipaddress row at the reserved network address `10.0.0.0`, the
sum `usedCount + unusedCount + |reservedAddresses| = 1 + 0 + 4 = 5`
differs from the network size 4: the identity as claimed (for every
network and any set of rows) fails once a used address is itself
reserved (or duplicated). -/
theorem usage_identity_refuted :
    used_count ⟨0x0a000000, 4, true, 2⟩ [⟨"h", 0x0a000000⟩] = 1 ∧
    unused_count ⟨0x0a000000, 4, true, 2⟩ [⟨"h", 0x0a000000⟩] = 0 ∧
    (get_reserved_addresses ⟨0x0a000000, 4, true, 2⟩).card = 4 ∧
    isCapped ⟨0x0a000000, 4, true, 2⟩ = false ∧
    ¬ (used_count ⟨0x0a000000, 4, true, 2⟩ [⟨"h", 0x0a000000⟩] +
        unused_count ⟨0x0a000000, 4, true, 2⟩ [⟨"h", 0x0a000000⟩] +
        (get_reserved_addresses ⟨0x0a000000, 4, true, 2⟩).card =
        (Net.mk 0x0a000000 4 true 2).size) := by
  refine ⟨by decide, by decide, by decide, by decide, by decide⟩

/-- C6: for a capped network (IPv6 with more than 4000 addresses) the
unused enumeration considers only the first 4000 usable addresses (the
reserved ones among them are then removed); in particular for
`2001:db8::/32` with `reserved = 3` and the single Ipaddress
`2001:db8::beef`, the used count is 1, the unused count 3997 and the
first unused address `2001:db8::4`. -/
theorem ipv6_unused_capped (n : Net) (rows : List IpRow)
    (hcap : isCapped n = true) :
    candidateAddresses n = (hostsList n).take unusedCap ∧
    (∀ a ∈ unused_list n rows, a ∈ (hostsList n).take unusedCap) ∧
    used_count ⟨0x20010db8 * 2 ^ 96, 2 ^ 96, false, 3⟩
      [⟨"host1.example.org", 0x20010db8 * 2 ^ 96 + 0xbeef⟩] = 1 ∧
    unused_count ⟨0x20010db8 * 2 ^ 96, 2 ^ 96, false, 3⟩
      [⟨"host1.example.org", 0x20010db8 * 2 ^ 96 + 0xbeef⟩] = 3997 ∧
    first_unused ⟨0x20010db8 * 2 ^ 96, 2 ^ 96, false, 3⟩
      [⟨"host1.example.org", 0x20010db8 * 2 ^ 96 + 0xbeef⟩] =
      some (0x20010db8 * 2 ^ 96 + 4) := by
  have hun := unused_v6_capped_three ⟨0x20010db8 * 2 ^ 96, 2 ^ 96, false, 3⟩
    [⟨"host1.example.org", 0x20010db8 * 2 ^ 96 + 0xbeef⟩] rfl rfl
    (by decide) (by decide)
  refine ⟨candidateAddresses_capped n hcap, ?_, by decide, ?_, ?_⟩
  · intro a ha
    rw [← candidateAddresses_capped n hcap]
    rw [unused_list] at ha
    exact List.mem_of_mem_filter ha
  · rw [unused_count, hun, addr_range_length]
  · rw [first_unused, hun, addr_range_head _ _ (by omega)]

/-- Witness for `ipv6_unused_capped` at the network `2001:db8::/32`. -/
theorem ipv6_unused_capped_witness :
    isCapped ⟨0x20010db8 * 2 ^ 96, 2 ^ 96, false, 3⟩ = true ∧
    unused_count ⟨0x20010db8 * 2 ^ 96, 2 ^ 96, false, 3⟩
      [⟨"host1.example.org", 0x20010db8 * 2 ^ 96 + 0xbeef⟩] = 3997 := by
  refine ⟨by decide, ?_⟩
  exact (ipv6_unused_capped ⟨0x20010db8 * 2 ^ 96, 2 ^ 96, false, 3⟩
    [⟨"host1.example.org", 0x20010db8 * 2 ^ 96 + 0xbeef⟩] (by decide)).2.2.2.1

/-- C4 (amended): `get_reserved_addresses` always contains the network
address, and for IPv4 always the broadcast address; the usable host
addresses it draws from are listed in strictly increasing address order
(so `take reserved` picks the first `reserved` of them); and for tiny
networks (at most 4 addresses, `reserved` defaulted to `min 2 size`) the
cardinality is `min (reserved+2) size` for IPv4 but `min (reserved+1)
size` for IPv6, which has no broadcast address to add. -/
theorem reserved_addresses_properties (n : Net) (hsz : 1 ≤ n.size) :
    n.base ∈ get_reserved_addresses n ∧
    (n.v4 = true → broadcast n ∈ get_reserved_addresses n) ∧
    List.Chain' (· < ·) (hostsList n) ∧
    (n.size ≤ 4 → n.reserved = min 2 n.size →
      (get_reserved_addresses n).card =
        if n.v4 then min (n.reserved + 2) n.size
        else min (n.reserved + 1) n.size) := by
  refine ⟨?_, ?_, hostsList_chain n, fun h4 hres => reserved_tiny_card n hsz h4 hres⟩
  · simp [get_reserved_addresses]
  · intro hv
    simp [get_reserved_addresses, hv]

/-- Witness for `reserved_addresses_properties` at the network
`10.0.0.0/30` with the defaulted `reserved = min 2 4`. -/
theorem reserved_addresses_properties_witness :
    1 ≤ (4 : Nat) ∧
    (Net.mk 0x0a000000 4 true 2).base ∈ get_reserved_addresses ⟨0x0a000000, 4, true, 2⟩ ∧
    broadcast ⟨0x0a000000, 4, true, 2⟩ ∈ get_reserved_addresses ⟨0x0a000000, 4, true, 2⟩ ∧
    (get_reserved_addresses ⟨0x0a000000, 4, true, 2⟩).card = min (2 + 2) 4 := by
  have h := reserved_addresses_properties ⟨0x0a000000, 4, true, 2⟩ (by decide)
  refine ⟨by decide, h.1, h.2.1 rfl, ?_⟩
  have hc := h.2.2.2 (by decide) (by decide)
  simpa using hc

/-- C4 counterexample: for the IPv6 network `2001:db8::/126` (4
addresses, `reserved` defaulted to `min 2 4 = 2`) the reserved set is
`{::, ::1, ::2}` with cardinality `3`, not `min (reserved+2) size = 4`:
IPv6 networks have no broadcast address, so the claimed cardinality
formula fails on them. -/
theorem reserved_count_ipv6_tiny_refuted :
    (get_reserved_addresses ⟨0x20010db8 * 2 ^ 96, 4, false, 2⟩).card = 3 ∧
    ¬ ((get_reserved_addresses ⟨0x20010db8 * 2 ^ 96, 4, false, 2⟩).card =
        min ((Net.mk (0x20010db8 * 2 ^ 96) 4 false 2).reserved + 2)
          (Net.mk (0x20010db8 * 2 ^ 96) 4 false 2).size) := by
  constructor <;> decide

/-! ## Reverse zone PTR resolution

`Zone.get_ipaddresses` (`mreg/models.py`, lines 76-103) is embedded
directly.  The covered range of the reverse zone (obtained in the
source from `get_network_from_zonename(self.name)`) is passed as the
interval `[lo, hi]`. -/

/-- One `PtrOverride` row: a host name and a globally unique address
(`mreg/models.py:189`). -/
structure PtrRow where
  host : String
  ipaddress : Nat
deriving DecidableEq

/-- An element yielded by `Zone.get_ipaddresses`: either a `PtrOverride`
row or an `Ipaddress` row (each later rendered as one PTR line by
`zf_string`). -/
inductive PtrEntry where
  | fromOverride (p : PtrRow)
  | fromIp (r : IpRow)
deriving DecidableEq

/-- The address a yielded entry maps to. -/
def entryIp : PtrEntry → Nat
  | .fromOverride p => p.ipaddress
  | .fromIp r => r.ipaddress

/-- The `override_ips` dictionary of `Zone.get_ipaddresses`
(models.py:81-83): built by inserting every in-range `PtrOverride` row
keyed by address, so the last row with a given address wins (the
column's unique constraint allows at most one anyway). -/
def override_for (ptrs : List PtrRow) (lo hi a : Nat) : Option PtrRow :=
  (ptrs.filter fun p => decide (lo ≤ p.ipaddress) && decide (p.ipaddress ≤ hi)).foldl
    (fun acc p => if p.ipaddress = a then some p else acc) none

/-- Number of Ipaddress rows carrying address `a`. -/
def countIp (rows : List IpRow) (a : Nat) : Nat :=
  (rows.filter fun r => decide (r.ipaddress = a)).length

/-- The `multiple_ip_no_ptr` skip set of `Zone.get_ipaddresses`
(models.py:86-90): an address is in it when no override covers it and
more than one Ipaddress row maps to it. -/
def multi_no_ptr (ips : List IpRow) (ov : Nat → Option PtrRow) (a : Nat) : Bool :=
  (ov a).isNone && decide (1 < countIp ips a)

/-- The emission loop of `Zone.get_ipaddresses` (models.py:94-103);
`done` is the `ptr_done` set. -/
def ptr_loop (ov : Nat → Option PtrRow) (multi : Nat → Bool) :
    List IpRow → List Nat → List PtrEntry
  | [], _ => []
  | i :: rest, done =>
    if multi i.ipaddress then ptr_loop ov multi rest done
    else
      match ov i.ipaddress with
      | some p =>
        if i.ipaddress ∈ done then ptr_loop ov multi rest done
        else .fromOverride p :: ptr_loop ov multi rest (i.ipaddress :: done)
      | none => .fromIp i :: ptr_loop ov multi rest done

/-- Insertion into a list sorted by address (models the
`order_by("ipaddress")` of models.py:80). -/
def insertByIp (r : IpRow) : List IpRow → List IpRow
  | [] => [r]
  | x :: xs =>
    if r.ipaddress < x.ipaddress then r :: x :: xs else x :: insertByIp r xs

/-- Sorting Ipaddress rows by address. -/
def sortByIp : List IpRow → List IpRow
  | [] => []
  | r :: rs => insertByIp r (sortByIp rs)

/-- The Ipaddress rows whose address falls in the zone's range
(models.py:80). -/
def zone_rows (lo hi : Nat) (rows : List IpRow) : List IpRow :=
  rows.filter fun r => decide (lo ≤ r.ipaddress) && decide (r.ipaddress ≤ hi)

/-- `Zone.get_ipaddresses` (models.py:76-103): the in-range Ipaddress
rows ordered by address are walked once; an address with several rows
and no override is skipped, an overridden address yields its override
exactly once, and any other address yields its rows. -/
def get_ipaddresses (lo hi : Nat) (rows : List IpRow) (ptrs : List PtrRow) :
    List PtrEntry :=
  let ips := sortByIp (zone_rows lo hi rows)
  let ov := override_for ptrs lo hi
  ptr_loop ov (multi_no_ptr ips ov) ips []

/-- The entries `Zone.get_ipaddresses` yields for one address. -/
def entries_at (lo hi : Nat) (rows : List IpRow) (ptrs : List PtrRow) (a : Nat) :
    List PtrEntry :=
  (get_ipaddresses lo hi rows ptrs).filter fun e => decide (entryIp e = a)

theorem insertByIp_perm (r : IpRow) (l : List IpRow) :
    (insertByIp r l).Perm (r :: l) := by
  induction l with
  | nil => simp [insertByIp]
  | cons x xs ih =>
    rw [insertByIp]
    split
    · exact List.Perm.refl _
    · exact (List.Perm.cons x ih).trans (List.Perm.swap r x xs)

theorem sortByIp_perm (l : List IpRow) : (sortByIp l).Perm l := by
  induction l with
  | nil => simp [sortByIp]
  | cons r rs ih =>
    rw [sortByIp]
    exact (insertByIp_perm r (sortByIp rs)).trans (List.Perm.cons r ih)

theorem override_fold_ip (a : Nat) (l : List PtrRow) (acc : Option PtrRow)
    (hacc : ∀ q, acc = some q → q.ipaddress = a) (p : PtrRow)
    (h : l.foldl (fun acc p => if p.ipaddress = a then some p else acc) acc = some p) :
    p.ipaddress = a := by
  induction l generalizing acc with
  | nil => exact hacc p h
  | cons x xs ih =>
    rw [List.foldl_cons] at h
    refine ih _ ?_ h
    intro q hq
    by_cases hx : x.ipaddress = a
    · rw [if_pos hx] at hq
      cases hq
      exact hx
    · rw [if_neg hx] at hq
      exact hacc q hq

/-- The dictionary only ever returns a row keyed by the queried
address. -/
theorem override_for_ip (ptrs : List PtrRow) (lo hi a : Nat) (p : PtrRow)
    (h : override_for ptrs lo hi a = some p) : p.ipaddress = a :=
  override_fold_ip a _ none (fun _ hq => by cases hq) p h

/-- An address in the skip set yields no entry. -/
theorem ptr_loop_filter_multi (ov : Nat → Option PtrRow) (multi : Nat → Bool)
    (a : Nat) (hov : ∀ x p, ov x = some p → p.ipaddress = x)
    (hm : multi a = true) :
    ∀ (ips : List IpRow) (done : List Nat),
      (ptr_loop ov multi ips done).filter (fun e => decide (entryIp e = a)) = [] := by
  intro ips
  induction ips with
  | nil => intro done; simp [ptr_loop]
  | cons i rest ih =>
    intro done
    rw [ptr_loop]
    by_cases hmi : multi i.ipaddress = true
    · rw [if_pos hmi]; exact ih done
    · rw [if_neg hmi]
      have hia : i.ipaddress ≠ a := fun h => hmi (h ▸ hm)
      cases ho : ov i.ipaddress with
      | none =>
        dsimp only
        rw [List.filter_cons]
        simp only [entryIp, hia, decide_False]
        exact ih done
      | some q =>
        dsimp only
        by_cases hd : i.ipaddress ∈ done
        · rw [if_pos hd]; exact ih done
        · rw [if_neg hd, List.filter_cons]
          have hq : q.ipaddress = i.ipaddress := hov _ _ ho
          simp only [entryIp, hq, hia, decide_False]
          exact ih (i.ipaddress :: done)

/-- An overridden address yields its override exactly once, provided
some row reaches it and it has not been emitted yet. -/
theorem ptr_loop_filter_override (ov : Nat → Option PtrRow) (multi : Nat → Bool)
    (a : Nat) (p : PtrRow) (hov : ∀ x p, ov x = some p → p.ipaddress = x)
    (hm : multi a = false) (ho : ov a = some p) :
    ∀ (ips : List IpRow) (done : List Nat),
      (ptr_loop ov multi ips done).filter (fun e => decide (entryIp e = a)) =
        if a ∈ done ∨ countIp ips a = 0 then [] else [.fromOverride p] := by
  intro ips
  induction ips with
  | nil =>
    intro done
    simp [ptr_loop, countIp]
  | cons i rest ih =>
    intro done
    rw [ptr_loop]
    by_cases hia : i.ipaddress = a
    · rw [hia]
      rw [if_neg (by simp [hm]), ho]
      dsimp only
      have hcnt : countIp (i :: rest) a = countIp rest a + 1 := by
        simp [countIp, List.filter_cons, hia]
      by_cases hd : a ∈ done
      · rw [if_pos hd, ih done, if_pos (Or.inl hd), if_pos (Or.inl hd)]
      · rw [if_neg hd, List.filter_cons]
        have hguard : (decide (entryIp (PtrEntry.fromOverride p) = a)) = true := by
          simp [entryIp, hov _ _ ho]
        rw [hguard, if_pos rfl, ih (a :: done),
          if_pos (Or.inl (List.mem_cons_self a done)), hcnt]
        have hcond : ¬ (a ∈ done ∨ countIp rest a + 1 = 0) := by
          rintro (h | h)
          · exact hd h
          · omega
        rw [if_neg hcond]
    · have hcnt : countIp (i :: rest) a = countIp rest a := by
        simp [countIp, List.filter_cons, hia]
      rw [hcnt]
      by_cases hmi : multi i.ipaddress = true
      · rw [if_pos hmi]; exact ih done
      · rw [if_neg hmi]
        cases hoi : ov i.ipaddress with
        | none =>
          dsimp only
          rw [List.filter_cons]
          simp only [entryIp, hia, decide_False]
          exact ih done
        | some q =>
          dsimp only
          by_cases hd : i.ipaddress ∈ done
          · rw [if_pos hd]; exact ih done
          · rw [if_neg hd, List.filter_cons]
            have hq : q.ipaddress = i.ipaddress := hov _ _ hoi
            have hguard : (decide (entryIp (PtrEntry.fromOverride q) = a)) = false := by
              simp [entryIp, hq, hia]
            rw [hguard, if_neg (by simp), ih (i.ipaddress :: done)]
            have hiff : (a ∈ i.ipaddress :: done ∨ countIp rest a = 0) ↔
                (a ∈ done ∨ countIp rest a = 0) := by
              simp only [List.mem_cons]
              constructor
              · rintro ((h | h) | h)
                · exact absurd h.symm hia
                · exact Or.inl h
                · exact Or.inr h
              · rintro (h | h)
                · exact Or.inl (Or.inr h)
                · exact Or.inr h
            by_cases hcond : a ∈ done ∨ countIp rest a = 0
            · rw [if_pos (hiff.mpr hcond), if_pos hcond]
            · rw [if_neg (fun hc => hcond (hiff.mp hc)), if_neg hcond]

theorem countIp_sortByIp (l : List IpRow) (a : Nat) :
    countIp (sortByIp l) a = countIp l a := by
  unfold countIp
  rw [← List.countP_eq_length_filter, ← List.countP_eq_length_filter]
  exact (sortByIp_perm l).countP_eq _

theorem filter_sortByIp_singleton (l : List IpRow) (r : IpRow) (a : Nat)
    (h : l.filter (fun x => decide (x.ipaddress = a)) = [r]) :
    (sortByIp l).filter (fun x => decide (x.ipaddress = a)) = [r] :=
  List.perm_singleton.mp (((sortByIp_perm l).filter _).trans (h ▸ List.Perm.refl _))

/-- A non-overridden address yields exactly its rows, in order. -/
theorem ptr_loop_filter_plain (ov : Nat → Option PtrRow) (multi : Nat → Bool)
    (a : Nat) (hov : ∀ x p, ov x = some p → p.ipaddress = x)
    (hm : multi a = false) (ho : ov a = none) :
    ∀ (ips : List IpRow) (done : List Nat),
      (ptr_loop ov multi ips done).filter (fun e => decide (entryIp e = a)) =
        (ips.filter fun r => decide (r.ipaddress = a)).map PtrEntry.fromIp := by
  intro ips
  induction ips with
  | nil => intro done; simp [ptr_loop]
  | cons i rest ih =>
    intro done
    rw [ptr_loop]
    by_cases hia : i.ipaddress = a
    · rw [hia]
      rw [if_neg (by simp [hm]), ho]
      dsimp only
      rw [List.filter_cons, List.filter_cons]
      simp [entryIp, hia]
      exact ih done
    · have hskip : (List.filter (fun r => decide (r.ipaddress = a)) (i :: rest)) =
          List.filter (fun r => decide (r.ipaddress = a)) rest := by
        simp [List.filter_cons, hia]
      rw [hskip]
      by_cases hmi : multi i.ipaddress = true
      · rw [if_pos hmi]; exact ih done
      · rw [if_neg hmi]
        cases hoi : ov i.ipaddress with
        | none =>
          dsimp only
          rw [List.filter_cons]
          simp only [entryIp, hia, decide_False]
          exact ih done
        | some q =>
          dsimp only
          by_cases hd : i.ipaddress ∈ done
          · rw [if_pos hd]; exact ih done
          · rw [if_neg hd, List.filter_cons]
            have hq : q.ipaddress = i.ipaddress := hov _ _ hoi
            simp only [entryIp, hq, hia, decide_False]
            exact ih (i.ipaddress :: done)

/-- C1 (amended): for every address `a` in a reverse zone's covered
range `[lo, hi]`: when a `PtrOverride` covers `a` and at least one
in-range Ipaddress row maps to `a`, exactly the override is yielded,
once; when no override covers `a` and exactly one row maps to it, that
row alone is yielded; when no override covers `a` and several rows map
to it, nothing is yielded; and when an override covers `a` but no row
maps to it, nothing is yielded either — the walk is driven by the
Ipaddress rows, so an override alone produces no PTR entry. -/
theorem reverse_zone_ptr_policy (lo hi : Nat) (rows : List IpRow)
    (ptrs : List PtrRow) (a : Nat) (hlo : lo ≤ a) (hhi : a ≤ hi) :
    (∀ p, override_for ptrs lo hi a = some p →
        0 < countIp (zone_rows lo hi rows) a →
        entries_at lo hi rows ptrs a = [.fromOverride p]) ∧
    (override_for ptrs lo hi a = none → ∀ r,
        (zone_rows lo hi rows).filter (fun x => decide (x.ipaddress = a)) = [r] →
        entries_at lo hi rows ptrs a = [.fromIp r]) ∧
    (override_for ptrs lo hi a = none → 1 < countIp (zone_rows lo hi rows) a →
        entries_at lo hi rows ptrs a = []) ∧
    (∀ p, override_for ptrs lo hi a = some p →
        countIp (zone_rows lo hi rows) a = 0 →
        entries_at lo hi rows ptrs a = []) := by
  have hov := override_for_ip ptrs lo hi
  refine ⟨?_, ?_, ?_, ?_⟩
  · intro p hp hcnt
    have hm : multi_no_ptr (sortByIp (zone_rows lo hi rows))
        (override_for ptrs lo hi) a = false := by
      simp [multi_no_ptr, hp]
    rw [entries_at, get_ipaddresses]
    rw [ptr_loop_filter_override _ _ a p hov hm hp _ []]
    rw [countIp_sortByIp]
    rw [if_neg (by simp; omega)]
  · intro hp r hr
    have hcnt : countIp (zone_rows lo hi rows) a = 1 := by
      rw [countIp, hr]
      rfl
    have hm : multi_no_ptr (sortByIp (zone_rows lo hi rows))
        (override_for ptrs lo hi) a = false := by
      simp [multi_no_ptr, countIp_sortByIp, hcnt]
    rw [entries_at, get_ipaddresses]
    rw [ptr_loop_filter_plain _ _ a hov hm hp _ []]
    rw [filter_sortByIp_singleton _ r a hr]
    rfl
  · intro hp hcnt
    have hm : multi_no_ptr (sortByIp (zone_rows lo hi rows))
        (override_for ptrs lo hi) a = true := by
      simp [multi_no_ptr, countIp_sortByIp, hp]
      omega
    rw [entries_at, get_ipaddresses]
    exact ptr_loop_filter_multi _ _ a hov hm _ []
  · intro p hp hcnt
    have hm : multi_no_ptr (sortByIp (zone_rows lo hi rows))
        (override_for ptrs lo hi) a = false := by
      simp [multi_no_ptr, hp]
    rw [entries_at, get_ipaddresses]
    rw [ptr_loop_filter_override _ _ a p hov hm hp _ []]
    rw [countIp_sortByIp]
    rw [if_pos (Or.inr hcnt)]

/-- Witness for `reverse_zone_ptr_policy`: address 5 of the range
`[0, 255]` with two Ipaddress rows at 5 and one PtrOverride at 5 — the
override is emitted exactly once. -/
theorem reverse_zone_ptr_policy_witness :
    entries_at 0 255 [⟨"host1.example.org", 5⟩, ⟨"host2.example.org", 5⟩]
      [⟨"ptr.example.org", 5⟩] 5 = [.fromOverride ⟨"ptr.example.org", 5⟩] := by
  have h := reverse_zone_ptr_policy 0 255
    [⟨"host1.example.org", 5⟩, ⟨"host2.example.org", 5⟩]
    [⟨"ptr.example.org", 5⟩] 5 (by decide) (by decide)
  exact h.1 ⟨"ptr.example.org", 5⟩ (by decide) (by decide)

/-- C1 counterexample: a PtrOverride at address 5 of the range
`[0, 255]` with no Ipaddress row at all: `Zone.get_ipaddresses` yields
nothing, although the claim requires exactly one PTR line for the
override. -/
theorem ptr_override_without_row_refuted :
    override_for [⟨"ptr.example.org", 5⟩] 0 255 5 = some ⟨"ptr.example.org", 5⟩ ∧
    get_ipaddresses 0 255 [] [⟨"ptr.example.org", 5⟩] = [] ∧
    ¬ (entries_at 0 255 [] [⟨"ptr.example.org", 5⟩] 5 =
        [PtrEntry.fromOverride ⟨"ptr.example.org", 5⟩]) := by
  refine ⟨by decide, by decide, by decide⟩

/-! ## Network overlap invariant

`Subnet.overlap_check` (`mreg/models.py`, lines 281-288) issues the SQL
`range::inet && inet candidate`, the Postgres operator that holds when
either CIDR block contains or equals the other.  `_overlap_check`
(`views.py:424-436`) optionally excludes one network id and treats a
non-empty result as a 409 conflict; `NetworkList.post`
(`views.py:449-462`) and `NetworkDetail.patch` (`views.py:499-509`)
guard creation and range changes with it. -/

/-- A persisted network row as the overlap machinery sees it: the
surrogate id used by `exclude`, and the parsed range. -/
structure NetRec where
  id : Nat
  base : Nat
  size : Nat
deriving DecidableEq

/-- One block contains (or equals) the other, as address intervals. -/
def containsR (x y : NetRec) : Bool :=
  decide (x.base ≤ y.base) && decide (y.base + y.size ≤ x.base + x.size)

/-- The Postgres `inet && inet` operator of `Subnet.overlap_check`
(models.py:287). -/
def inetOverlap (x y : NetRec) : Bool := containsR x y || containsR y x

/-- `Subnet.overlap_check(subnet)` (models.py:281-288): every persisted
network whose range `&&`-overlaps the candidate. -/
def overlap_check (nets : List NetRec) (c : NetRec) : List NetRec :=
  nets.filter fun n => inetOverlap n c

/-- `_overlap_check(range, exclude)` (views.py:424-436): the overlap
list, optionally with one network id excluded. -/
def overlap_check_excl (nets : List NetRec) (c : NetRec) (excl : Option Nat) :
    List NetRec :=
  match excl with
  | none => overlap_check nets c
  | some i => (overlap_check nets c).filter fun n => decide (n.id ≠ i)

/-- `NetworkList.post` (views.py:449-462): a 409 conflict when the new
range overlaps any existing network, otherwise the network is added. -/
def network_post (nets : List NetRec) (c : NetRec) : Except String (List NetRec) :=
  if (overlap_check_excl nets c none).isEmpty then .ok (nets ++ [c])
  else .error "409 network overlap"

/-- `NetworkDetail.patch` of the range field (views.py:499-509): a 409
conflict when the new range overlaps any network other than the patched
one, otherwise the range is replaced. -/
def network_patch_range (nets : List NetRec) (i nb nsz : Nat) :
    Except String (List NetRec) :=
  if (overlap_check_excl nets ⟨i, nb, nsz⟩ (some i)).isEmpty then
    .ok (nets.map fun n => if n.id = i then ⟨i, nb, nsz⟩ else n)
  else .error "409 network overlap"

/-- The two ranges intersect as sets of addresses. -/
def Intersects (x y : NetRec) : Prop :=
  ∃ a, x.base ≤ a ∧ a < x.base + x.size ∧ y.base ≤ a ∧ a < y.base + y.size

/-- CIDR wellformedness: a power-of-two sized block aligned to its own
size. -/
def IsCidr (x : NetRec) : Prop := ∃ k, x.size = 2 ^ k ∧ 2 ^ k ∣ x.base

theorem intersects_symm (x y : NetRec) (h : Intersects x y) : Intersects y x := by
  obtain ⟨a, h1, h2, h3, h4⟩ := h
  exact ⟨a, h3, h4, h1, h2⟩

/-- Two aligned power-of-two blocks that share an address are nested:
the smaller lies inside the larger. -/
theorem cidr_blocks_nested (j k b c a : Nat) (hjk : j ≤ k)
    (hj : 2 ^ j ∣ b) (hk : 2 ^ k ∣ c)
    (ha1 : b ≤ a) (ha2 : a < b + 2 ^ j) (ha3 : c ≤ a) (ha4 : a < c + 2 ^ k) :
    c ≤ b ∧ b + 2 ^ j ≤ c + 2 ^ k := by
  obtain ⟨u, hu⟩ := hk
  have hdvd : (2 : Nat) ^ j ∣ 2 ^ k := pow_dvd_pow 2 hjk
  have hpk : 0 < (2 : Nat) ^ k := pow_pos (by norm_num) k
  have hpj : 0 < (2 : Nat) ^ j := pow_pos (by norm_num) j
  have hmodd : 2 ^ j ∣ b % 2 ^ k := (Nat.dvd_mod_iff hdvd).mpr hj
  have hmlt : b % 2 ^ k < 2 ^ k := Nat.mod_lt _ hpk
  have hble : b % 2 ^ k + 2 ^ j ≤ 2 ^ k := by
    obtain ⟨m, hm⟩ := hmodd
    obtain ⟨t, ht⟩ := hdvd
    rw [hm, ht] at hmlt
    rw [hm, ht]
    have hmt : m < t := lt_of_mul_lt_mul_left hmlt (Nat.zero_le _)
    calc 2 ^ j * m + 2 ^ j = 2 ^ j * (m + 1) := by ring
      _ ≤ 2 ^ j * t := Nat.mul_le_mul_left _ hmt
  have hX := Nat.div_add_mod b (2 ^ k)
  have h2v : 2 ^ k * (b / 2 ^ k) ≤ a := by omega
  have h3v : a < 2 ^ k * (b / 2 ^ k) + 2 ^ k := by omega
  have h2u : 2 ^ k * u ≤ a := by omega
  have h3u : a < 2 ^ k * u + 2 ^ k := by omega
  have huv : u = b / 2 ^ k := by
    have e1 : 2 ^ k * u < 2 ^ k * (b / 2 ^ k + 1) := by
      have he : 2 ^ k * (b / 2 ^ k + 1) = 2 ^ k * (b / 2 ^ k) + 2 ^ k := by ring
      omega
    have e2 : 2 ^ k * (b / 2 ^ k) < 2 ^ k * (u + 1) := by
      have he : 2 ^ k * (u + 1) = 2 ^ k * u + 2 ^ k := by ring
      omega
    have f1 : u < b / 2 ^ k + 1 := lt_of_mul_lt_mul_left e1 (Nat.zero_le _)
    have f2 : b / 2 ^ k < u + 1 := lt_of_mul_lt_mul_left e2 (Nat.zero_le _)
    omega
  rw [huv] at hu
  omega

/-- For wellformed CIDR blocks, interval intersection coincides with
the `&&` containment test the SQL check uses. -/
theorem cidr_overlap_iff (x y : NetRec) (hx : IsCidr x) (hy : IsCidr y) :
    Intersects x y ↔ inetOverlap x y = true := by
  obtain ⟨j, hxs, hxd⟩ := hx
  obtain ⟨k, hys, hyd⟩ := hy
  constructor
  · rintro ⟨a, h1, h2, h3, h4⟩
    rw [hxs] at h2
    rw [hys] at h4
    simp only [inetOverlap, containsR, Bool.or_eq_true, Bool.and_eq_true,
      decide_eq_true_eq]
    rcases le_total j k with hjk | hkj
    · have hn := cidr_blocks_nested j k x.base y.base a hjk hxd hyd h1 h2 h3 h4
      rw [hxs, hys]
      omega
    · have hn := cidr_blocks_nested k j y.base x.base a hkj hyd hxd h3 h4 h1 h2
      rw [hxs, hys]
      omega
  · intro hov
    simp only [inetOverlap, containsR, Bool.or_eq_true, Bool.and_eq_true,
      decide_eq_true_eq] at hov
    have hpx : 0 < x.size := by rw [hxs]; exact pow_pos (by norm_num) j
    have hpy : 0 < y.size := by rw [hys]; exact pow_pos (by norm_num) k
    rcases hov with ⟨h1, h2⟩ | ⟨h1, h2⟩
    · exact ⟨y.base, h1, by omega, le_refl _, by omega⟩
    · exact ⟨x.base, le_refl _, by omega, h1, by omega⟩

/-- C7: under the no-overlap invariant, a network create whose range
intersects an existing network's range is rejected as a conflict (no
record created), a successful create preserves the invariant, a range
patch whose new range intersects another network's range is rejected
as a conflict, and a successful range patch preserves the invariant. -/
theorem network_no_overlap_invariant (nets : List NetRec) (c : NetRec)
    (i nb nsz : Nat)
    (hwf : ∀ n ∈ nets, IsCidr n) (hc : IsCidr c) (hp : IsCidr ⟨i, nb, nsz⟩)
    (hids : nets.Pairwise (fun x y => x.id ≠ y.id))
    (hinv : nets.Pairwise (fun x y => ¬ Intersects x y)) :
    (∀ nets2, network_post nets c = .ok nets2 →
       nets2.Pairwise (fun x y => ¬ Intersects x y)) ∧
    ((∃ n ∈ nets, Intersects n c) →
       network_post nets c = .error "409 network overlap") ∧
    (∀ nets2, network_patch_range nets i nb nsz = .ok nets2 →
       nets2.Pairwise (fun x y => ¬ Intersects x y)) ∧
    ((∃ n ∈ nets, n.id ≠ i ∧ Intersects n ⟨i, nb, nsz⟩) →
       network_patch_range nets i nb nsz = .error "409 network overlap") := by
  refine ⟨?_, ?_, ?_, ?_⟩
  · intro nets2 hok
    rw [network_post] at hok
    by_cases hemp : (overlap_check_excl nets c none).isEmpty = true
    · rw [if_pos hemp] at hok
      cases hok
      have hnone : ∀ n ∈ nets, ¬ Intersects n c := by
        intro n hn hint
        rw [overlap_check_excl, overlap_check] at hemp
        rw [List.isEmpty_iff, List.filter_eq_nil_iff] at hemp
        exact hemp n hn ((cidr_overlap_iff n c (hwf n hn) hc).mp hint)
      rw [List.pairwise_append]
      refine ⟨hinv, List.pairwise_singleton _ _, ?_⟩
      intro n hn b hb
      rw [List.mem_singleton] at hb
      subst hb
      exact hnone n hn
    · rw [if_neg hemp] at hok
      cases hok
  · rintro ⟨n, hn, hint⟩
    rw [network_post]
    rw [if_neg ?_]
    intro hemp
    rw [overlap_check_excl, overlap_check, List.isEmpty_iff,
      List.filter_eq_nil_iff] at hemp
    exact hemp n hn ((cidr_overlap_iff n c (hwf n hn) hc).mp hint)
  · intro nets2 hok
    rw [network_patch_range] at hok
    by_cases hemp : (overlap_check_excl nets ⟨i, nb, nsz⟩ (some i)).isEmpty = true
    · rw [if_pos hemp] at hok
      cases hok
      have hclear : ∀ n ∈ nets, n.id ≠ i → ¬ Intersects n ⟨i, nb, nsz⟩ := by
        intro n hn hni hint
        rw [overlap_check_excl, overlap_check, List.isEmpty_iff,
          List.filter_eq_nil_iff] at hemp
        have hmem : n ∈ List.filter (fun n => inetOverlap n ⟨i, nb, nsz⟩) nets := by
          rw [List.mem_filter]
          exact ⟨hn, (cidr_overlap_iff n ⟨i, nb, nsz⟩ (hwf n hn) hp).mp hint⟩
        exact hemp n hmem (by simpa using hni)
      rw [List.pairwise_map]
      refine (hids.and hinv).imp_of_mem ?_
      intro x y hx hy hxy
      obtain ⟨hxid, hxint⟩ := hxy
      by_cases hxi : x.id = i <;> by_cases hyi : y.id = i
      · exact absurd (hxi.trans hyi.symm) hxid
      · rw [if_pos hxi, if_neg hyi]
        intro hint
        exact hclear y hy (by simpa using hyi) (intersects_symm _ _ hint)
      · rw [if_neg hxi, if_pos hyi]
        exact hclear x hx (by simpa using hxi)
      · rw [if_neg hxi, if_neg hyi]
        exact hxint
    · rw [if_neg hemp] at hok
      cases hok
  · rintro ⟨n, hn, hni, hint⟩
    rw [network_patch_range]
    rw [if_neg ?_]
    intro hemp
    rw [overlap_check_excl, overlap_check, List.isEmpty_iff,
      List.filter_eq_nil_iff] at hemp
    have hmem : n ∈ List.filter (fun n => inetOverlap n ⟨i, nb, nsz⟩) nets := by
      rw [List.mem_filter]
      exact ⟨hn, (cidr_overlap_iff n ⟨i, nb, nsz⟩ (hwf n hn) hp).mp hint⟩
    exact hemp n hmem (by simpa using hni)

/-- Witness for `network_no_overlap_invariant`: one existing /30-sized
block at 0, a disjoint create at 8, and a disjoint patch to 16. -/
theorem network_no_overlap_invariant_witness :
    network_post [⟨1, 0, 4⟩] ⟨2, 8, 4⟩ = .ok [⟨1, 0, 4⟩, ⟨2, 8, 4⟩] ∧
    ([⟨1, 0, 4⟩, ⟨2, 8, 4⟩] : List NetRec).Pairwise (fun x y => ¬ Intersects x y) := by
  have h := network_no_overlap_invariant [⟨1, 0, 4⟩] ⟨2, 8, 4⟩ 1 16 4
    (by
      intro n hn
      rw [List.mem_singleton] at hn
      subst hn
      exact ⟨2, rfl, 0, rfl⟩)
    ⟨2, rfl, 2, rfl⟩ ⟨2, rfl, 4, rfl⟩
    (List.pairwise_singleton _ _) (List.pairwise_singleton _ _)
  exact ⟨rfl, h.1 _ rfl⟩

/-! ## Host-to-zone resolution

The suffix-matching resolver of spec §4.4 lives in the serializer layer,
which is not among the source files under examination (tests.py
exercises it through the API); it is therefore modelled from the spec.
DNS names are represented as their lists of dot-separated labels, e.g.
`host1.sub.example.org` as `["host1", "sub", "example", "org"]`. -/

/-- Modelled from the spec: a zone name matches a host name when the
zone's labels are a suffix of the host's labels (§4.4). -/
def zone_matches (zone host : List String) : Bool := zone.isSuffixOf host

/-- Keep the candidate with more labels (used left to right over the
matching zones; two distinct matching zones never tie, because a suffix
of a given length is unique). -/
def pick_longer (acc : Option (List String)) (z : List String) :
    Option (List String) :=
  match acc with
  | none => some z
  | some b => if b.length < z.length then some z else acc

/-- Modelled from the spec: the owning zone of a host name is the
longest-suffix-matching zone name, none when no zone matches (§4.4). -/
def zone_for (zones : List (List String)) (host : List String) :
    Option (List String) :=
  (zones.filter fun z => zone_matches z host).foldl pick_longer none

/-- A host as the resolver sees it: its name and its derived zone. -/
structure HostRec where
  name : List String
  zone : Option (List String)
deriving DecidableEq

/-- Modelled from the spec: host creation resolves the owning zone from
the new host's name (§4.4). -/
def create_host (zones : List (List String)) (hosts : List HostRec)
    (name : List String) : List HostRec :=
  hosts ++ [⟨name, zone_for zones name⟩]

/-- Modelled from the spec: a rename re-resolves the owning zone from
the host's new name (§4.4). -/
def rename_host (zones : List (List String)) (hosts : List HostRec)
    (old nw : List String) : List HostRec :=
  hosts.map fun h => if h.name = old then ⟨nw, zone_for zones nw⟩ else h

/-- The fold of `zone_for` returns an element of its input maximising
the label count (or its accumulator), and is `none` only when both are
empty. -/
theorem fold_pick_longer (l : List (List String)) (acc : Option (List String)) :
    (l.foldl pick_longer acc = none → acc = none ∧ l = []) ∧
    (∀ z, l.foldl pick_longer acc = some z →
      (z ∈ l ∨ acc = some z) ∧
      (∀ b, acc = some b → b.length ≤ z.length) ∧
      (∀ y ∈ l, y.length ≤ z.length)) := by
  induction l generalizing acc with
  | nil =>
    refine ⟨fun h => ⟨h, rfl⟩, fun z hz => ⟨Or.inr hz, ?_, ?_⟩⟩
    · intro b hb
      rw [hb] at hz
      cases hz
      exact le_refl _
    · intro y hy
      exact absurd hy (List.not_mem_nil y)
  | cons z0 zs ih =>
    have hstep : ∀ acc2, pick_longer acc2 z0 ≠ none := by
      intro acc2
      cases acc2 with
      | none => simp [pick_longer]
      | some b =>
        rw [pick_longer]
        split <;> simp
    constructor
    · intro h
      rw [List.foldl_cons] at h
      obtain ⟨h1, _⟩ := (ih (pick_longer acc z0)).1 h
      exact absurd h1 (hstep acc)
    · intro z hz
      rw [List.foldl_cons] at hz
      obtain ⟨hmem, hacc, helems⟩ := (ih (pick_longer acc z0)).2 z hz
      refine ⟨?_, ?_, ?_⟩
      · rcases hmem with hmem | hmem
        · exact Or.inl (List.mem_cons_of_mem z0 hmem)
        · cases acc with
          | none =>
            rw [pick_longer] at hmem
            cases hmem
            exact Or.inl (List.mem_cons_self z0 zs)
          | some b =>
            rw [pick_longer] at hmem
            split at hmem
            · cases hmem
              exact Or.inl (List.mem_cons_self z0 zs)
            · exact Or.inr hmem
      · intro b hb
        subst hb
        have hf := hacc
        rw [pick_longer] at hf
        by_cases hlen : b.length < z0.length
        · rw [if_pos hlen] at hf
          have := hf z0 rfl
          omega
        · rw [if_neg hlen] at hf
          exact hf b rfl
      · intro y hy
        rcases List.mem_cons.mp hy with rfl | hy2
        · cases acc with
          | none => exact hacc y (by rw [pick_longer])
          | some b =>
            have hf := hacc
            rw [pick_longer] at hf
            by_cases hlen : b.length < y.length
            · rw [if_pos hlen] at hf
              exact hf y rfl
            · rw [if_neg hlen] at hf
              have := hf b rfl
              omega
        · exact helems y hy2

/-- C8: the resolved zone of a host name is a zone whose labels are a
suffix of the host's labels and which maximises the label count among
all matching zones; no zone is resolved exactly when no zone name is a
suffix of the host name; creation stores the zone resolved from the new
host's name and a rename stores the zone resolved from the new name;
and on the spec's example `host1.sub.example.org` resolves to
`sub.example.org` when present, else `example.org`, and to none when no
zone name is a suffix of it. -/
theorem host_zone_longest_suffix (zones : List (List String))
    (hosts : List HostRec) (name old nw : List String) :
    (∀ z, zone_for zones name = some z →
      z ∈ zones ∧ zone_matches z name = true ∧
      ∀ z2 ∈ zones, zone_matches z2 name = true → z2.length ≤ z.length) ∧
    (zone_for zones name = none ↔ ∀ z ∈ zones, zone_matches z name = false) ∧
    ((⟨name, zone_for zones name⟩ : HostRec) ∈ create_host zones hosts name) ∧
    (∀ h ∈ hosts, h.name = old →
      (⟨nw, zone_for zones nw⟩ : HostRec) ∈ rename_host zones hosts old nw) ∧
    zone_for [["example", "org"], ["sub", "example", "org"], ["example", "com"]]
      ["host1", "sub", "example", "org"] = some ["sub", "example", "org"] ∧
    zone_for [["example", "org"], ["example", "com"]]
      ["host1", "sub", "example", "org"] = some ["example", "org"] ∧
    zone_for [["example", "org"], ["example", "com"]]
      ["host1", "example", "net"] = none := by
  refine ⟨?_, ?_, ?_, ?_, by decide, by decide, by decide⟩
  · intro z hz
    obtain ⟨hmem, _, helems⟩ :=
      (fold_pick_longer (zones.filter fun z => zone_matches z name) none).2 z hz
    have hzf : z ∈ zones.filter fun z => zone_matches z name := by
      rcases hmem with hmem | hmem
      · exact hmem
      · cases hmem
    rw [List.mem_filter] at hzf
    refine ⟨hzf.1, hzf.2, ?_⟩
    intro z2 hz2 hm2
    exact helems z2 (List.mem_filter.mpr ⟨hz2, hm2⟩)
  · constructor
    · intro h z hz
      by_contra hm
      rw [Bool.not_eq_false] at hm
      obtain ⟨_, hnil⟩ :=
        (fold_pick_longer (zones.filter fun z => zone_matches z name) none).1 h
      have : z ∈ (List.nil : List (List String)) := by
        rw [← hnil]
        exact List.mem_filter.mpr ⟨hz, hm⟩
      exact absurd this (List.not_mem_nil z)
    · intro hall
      have hnil : (zones.filter fun z => zone_matches z name) = [] := by
        rw [List.filter_eq_nil_iff]
        intro z hz
        rw [hall z hz]
        simp
      rw [zone_for, hnil]
      rfl
  · rw [create_host]
    exact List.mem_append_right _ (List.mem_singleton.mpr rfl)
  · intro h hh hname
    rw [rename_host]
    refine List.mem_map.mpr ⟨h, hh, ?_⟩
    rw [if_pos hname]

/-- Witness for `host_zone_longest_suffix`: renaming
`host1.example.org` to `host1.example.com` re-resolves its zone to
`example.com`. -/
theorem host_zone_longest_suffix_witness :
    (⟨["host1", "example", "com"],
        zone_for [["example", "org"], ["example", "com"]]
          ["host1", "example", "com"]⟩ : HostRec) ∈
      rename_host [["example", "org"], ["example", "com"]]
        [⟨["host1", "example", "org"], some ["example", "org"]⟩]
        ["host1", "example", "org"] ["host1", "example", "com"] ∧
    zone_for [["example", "org"], ["example", "com"]]
      ["host1", "example", "com"] = some ["example", "com"] := by
  have h := host_zone_longest_suffix [["example", "org"], ["example", "com"]]
    [⟨["host1", "example", "org"], some ["example", "org"]⟩]
    ["host1", "example", "com"] ["host1", "example", "org"]
    ["host1", "example", "com"]
  refine ⟨h.2.2.2.1 ⟨["host1", "example", "org"], some ["example", "org"]⟩
    (List.mem_singleton.mpr rfl) rfl, by decide⟩

/-! ## Service record rendering

`Srv.zf_string` (`mreg/models.py`, lines 337-348) is declared with only
the `self` parameter — unlike every other `zf_string` in the file,
which takes `zone` — yet its body interpolates
`qualify(self.service, zone)` and `qualify(self.target, zone)`.
Evaluating the free name `zone` in a scope that binds only `self`
raises `NameError` before any text is produced (and passing a zone
argument as the renderer does for the other record types raises
`TypeError`), so the method can never return a line. -/

/-- An `Srv` row (models.py:322-329). -/
structure Srv where
  service : String
  priority : Option Int
  weight : Option Int
  port : Option Int
  ttl : Option Int
  target : Option String

/-- The environment of `Srv.zf_string`'s body: its sole parameter
`self` (models.py:337); the module defines no global named `zone`. -/
def srv_zf_env : List (String × String) := [("self", "<srv row>")]

/-- Python name resolution for a free variable occurrence. -/
def lookupName (env : List (String × String)) (x : String) :
    Except String String :=
  match env.find? (fun p => p.1 = x) with
  | some p => .ok p.2
  | none => .error ("NameError: name " ++ x ++ " is not defined")

/-- Left-pad-free column of the zonefile formats: the value followed by
spaces up to the column width. -/
def padTo (s : String) (n : Nat) : String :=
  s ++ String.mk (List.replicate (n - s.length) ' ')

/-- Modelled from the spec: `clear_none` of the missing `mreg/utils.py`
renders a null field as empty text. -/
def clear_none (o : Option Int) : String :=
  match o with
  | none => ""
  | some v => toString v

/-- The SRV line of models.py:348, built once the names in the format
resolve: `{name:24} {ttl:5} IN {record_type:6} {priority} {weight}
{port} {target}`. -/
def srv_line (s : Srv) (zone : String) : String :=
  padTo (s.service ++ "." ++ zone ++ ".") 24 ++ " " ++
    padTo (clear_none s.ttl) 5 ++ " IN " ++ padTo "SRV" 6 ++ " " ++
    clear_none s.priority ++ " " ++ clear_none s.weight ++ " " ++
    clear_none s.port ++ " " ++ (s.target.getD "") ++ "." ++ zone ++ ".\n"

/-- `Srv.zf_string` (models.py:337-348): the first interpolated field
evaluates `qualify(self.service, zone)`, so the free name `zone` is
resolved before any output can be built. -/
def Srv.zf_string (s : Srv) : Except String String := do
  let z ← lookupName srv_zf_env "zone"
  .ok (srv_line s z)

/-- C9 evaluation: computing the zonefile line of a service record
always fails with a NameError — for every Srv row, and in particular
for the concrete record `_sip._tcp.example.org`. -/
theorem srv_zf_string_always_fails (s : Srv) :
    Srv.zf_string s = .error "NameError: name zone is not defined" ∧
    Srv.zf_string ⟨"_sip._tcp.example.org", some 10, some 5, some 5060,
        none, some "sipserver.example.org"⟩ =
      .error "NameError: name zone is not defined" := by
  constructor <;> rfl

/-! ## Ipaddress uniqueness -/

/-- Creating an `Ipaddress` row: the `unique_together = (hostid,
ipaddress)` constraint (models.py:167-169) is the only uniqueness rule
on the address column, so creation is rejected exactly when the same
(host, address) pair is already present. -/
def add_ipaddress (rows : List IpRow) (h : String) (a : Nat) :
    Except String (List IpRow) :=
  if rows.any fun r => decide (r.host = h) && decide (r.ipaddress = a) then
    .error "unique_together (hostid, ipaddress) violated"
  else .ok (rows ++ [⟨h, a⟩])

/-- C10: creating an Ipaddress fails exactly when the same (host,
address) pair already exists; in particular, when `(h1, a)` exists and
`h2` is a different host not yet holding `a`, creating `(h2, a)`
succeeds — one address may be held by several hosts, and uniqueness is
scoped per host, not globally. -/
theorem ipaddress_unique_per_host (rows : List IpRow) (h1 h2 : String) (a : Nat)
    (hmem : (⟨h1, a⟩ : IpRow) ∈ rows) (hne : h2 ≠ h1)
    (hnew : ∀ r ∈ rows, ¬ (r.host = h2 ∧ r.ipaddress = a)) :
    (∀ (rows2 : List IpRow) (h : String) (b : Nat),
      (∃ e, add_ipaddress rows2 h b = .error e) ↔
        ∃ r ∈ rows2, r.host = h ∧ r.ipaddress = b) ∧
    (∃ e, add_ipaddress rows h1 a = .error e) ∧
    add_ipaddress rows h2 a = .ok (rows ++ [⟨h2, a⟩]) := by
  have hgen : ∀ (rows2 : List IpRow) (h : String) (b : Nat),
      (∃ e, add_ipaddress rows2 h b = .error e) ↔
        ∃ r ∈ rows2, r.host = h ∧ r.ipaddress = b := by
    intro rows2 h b
    rw [add_ipaddress]
    by_cases hany : (rows2.any fun r => decide (r.host = h) && decide (r.ipaddress = b)) = true
    · rw [if_pos hany]
      simp only [List.any_eq_true, Bool.and_eq_true, decide_eq_true_eq] at hany
      constructor
      · intro _
        exact hany
      · intro _
        exact ⟨_, rfl⟩
    · rw [if_neg hany]
      simp only [List.any_eq_true, Bool.and_eq_true, decide_eq_true_eq] at hany
      constructor
      · rintro ⟨e, he⟩
        cases he
      · intro hex
        exact absurd hex hany
  refine ⟨hgen, (hgen rows h1 a).mpr ⟨⟨h1, a⟩, hmem, rfl, rfl⟩, ?_⟩
  rw [add_ipaddress, if_neg ?_]
  simp only [List.any_eq_true, Bool.and_eq_true, decide_eq_true_eq]
  rintro ⟨r, hr, hrh, hra⟩
  exact hnew r hr ⟨hrh, hra⟩

/-- Witness for `ipaddress_unique_per_host`: `host1.example.org` holds
`10.0.0.5`; creating the same address for `host2.example.org`
succeeds. -/
theorem ipaddress_unique_per_host_witness :
    add_ipaddress [⟨"host1.example.org", 0x0a000005⟩] "host2.example.org"
      0x0a000005 =
      .ok [⟨"host1.example.org", 0x0a000005⟩, ⟨"host2.example.org", 0x0a000005⟩] ∧
    (∃ e, add_ipaddress [⟨"host1.example.org", 0x0a000005⟩] "host1.example.org"
      0x0a000005 = .error e) := by
  have h := ipaddress_unique_per_host [⟨"host1.example.org", 0x0a000005⟩]
    "host1.example.org" "host2.example.org" 0x0a000005
    (List.mem_singleton.mpr rfl) (by decide)
    (by
      intro r hr
      rw [List.mem_singleton] at hr
      subst hr
      rintro ⟨hrh, _⟩
      exact absurd hrh (by decide))
  exact ⟨h.2.2, h.2.1⟩

end Mreg
